import Mathlib

set_option linter.unnecessarySeqFocus false

/-!
Verification development for the Nanoscribe demo engine.

The repository ships the demo driver `main.py`; the engine it drives
(`nano_engine.NanoscribeEngine`) exposes a batch plane-intersection kernel in
a scalar and a vectorized variant, and a lock-stress subsystem with a safe
(globally ordered) and an unsafe (direction-selectable) acquisition path.
The engine itself is not part of the repository sources, so its operations
are modelled here from the specification; the driver's control flow is
embedded from `main.py`.
-/

namespace Nanoscribe

/-- Modelled from the spec: values of the engine's 32-bit float inputs, as far
as the kernel observes them.  The kernel only ever compares values with `<=`,
so a value is a finite rational, an infinity of either sign, or a NaN; IEEE-754
ordered comparison on finite floats agrees with the rational order. -/
inductive F32 where
  | nan : F32
  | inf : F32
  | neginf : F32
  | finite : ℚ → F32
deriving DecidableEq

/-- IEEE-754 ordered `<=` on modelled f32 values: any comparison involving NaN
is false; `-inf` is below everything else, `+inf` above. -/
def fle : F32 → F32 → Bool
  | .nan, _ => false
  | _, .nan => false
  | .neginf, _ => true
  | _, .inf => true
  | .inf, _ => false
  | _, .neginf => false
  | .finite a, .finite b => decide (a ≤ b)

/-- IEEE-754 ordered `<` on modelled f32 values: false whenever NaN is involved. -/
def flt : F32 → F32 → Bool
  | .nan, _ => false
  | _, .nan => false
  | .inf, _ => false
  | _, .neginf => false
  | .neginf, _ => true
  | _, .inf => true
  | .finite a, .finite b => decide (a < b)

/-- Modelled from the spec: triangle `(z_min, z_max)` intersects the slicing
plane iff `z_min <= plane <= z_max` under IEEE comparison semantics. -/
def intersects (zmin zmax plane : F32) : Bool :=
  fle zmin plane && fle plane zmax

/-- Modelled from the spec: the only error kind the engine itself raises. -/
inductive EngineError where
  | invalidArgument : EngineError
deriving DecidableEq

/-- Modelled from the spec: the scalar kernel loop — process triangles one at
a time, apply the predicate, accumulate the count. -/
def scalarLoop (pairs : List (F32 × F32)) (plane : F32) (acc : Nat) : Nat :=
  match pairs with
  | [] => acc
  | (a, b) :: rest =>
      scalarLoop rest plane (acc + if intersects a b plane then 1 else 0)

/-- Modelled from the spec: `process_stl_scalar` — validate that the two
sequences have equal length (`InvalidArgument` otherwise, before any work),
then run the scalar loop over the zipped batch. -/
def process_stl_scalar (zmin zmax : List F32) (plane : F32) :
    Except EngineError Nat :=
  if zmin.length = zmax.length then
    .ok (scalarLoop (zmin.zip zmax) plane 0)
  else
    .error .invalidArgument

/-- Modelled from the spec: the fixed lane width of the vectorized kernel (an
implementation/platform choice that must not affect the result). -/
def laneWidth : Nat := 8

/-- Modelled from the spec: hits of one SIMD lane — the predicate applied
across the lane, then reduced to a partial count. -/
def laneHits (lane : List (F32 × F32)) (plane : F32) : Nat :=
  lane.countP (fun ab => intersects ab.1 ab.2 plane)

/-- Modelled from the spec: the vectorized kernel loop — partition the batch
into lanes of `laneWidth` and accumulate the lane-wise partial counts. -/
def simdLoop (pairs : List (F32 × F32)) (plane : F32) (acc : Nat) : Nat :=
  match pairs with
  | [] => acc
  | x :: rest =>
      simdLoop (List.drop laneWidth (x :: rest)) plane
        (acc + laneHits (List.take laneWidth (x :: rest)) plane)
termination_by pairs.length
decreasing_by
  simp only [List.length_drop, List.length_cons, laneWidth]
  omega

/-- Modelled from the spec: `process_stl_simd` — same validation as the
scalar variant, then the lane-partitioned loop. -/
def process_stl_simd (zmin zmax : List F32) (plane : F32) :
    Except EngineError Nat :=
  if zmin.length = zmax.length then
    .ok (simdLoop (zmin.zip zmax) plane 0)
  else
    .error .invalidArgument

/-- The predicate the kernels count, on zipped pairs. -/
def hitPred (plane : F32) : F32 × F32 → Bool :=
  fun ab => intersects ab.1 ab.2 plane

theorem laneHits_eq_countP (lane : List (F32 × F32)) (plane : F32) :
    laneHits lane plane = lane.countP (hitPred plane) := rfl

theorem scalarLoop_eq_countP (pairs : List (F32 × F32)) (plane : F32) :
    ∀ acc, scalarLoop pairs plane acc = acc + pairs.countP (hitPred plane) := by
  induction pairs with
  | nil => intro acc; simp [scalarLoop]
  | cons ab rest ih =>
      intro acc
      obtain ⟨a, b⟩ := ab
      simp only [scalarLoop, ih, List.countP_cons, hitPred]
      by_cases h : intersects a b plane <;> simp [h] <;> omega

theorem simdLoop_eq_countP (plane : F32) :
    ∀ n (pairs : List (F32 × F32)), pairs.length ≤ n →
      ∀ acc, simdLoop pairs plane acc = acc + pairs.countP (hitPred plane) := by
  intro n
  induction n with
  | zero =>
      intro pairs hlen acc
      have : pairs = [] := List.eq_nil_of_length_eq_zero (Nat.le_zero.mp hlen)
      subst this
      simp [simdLoop]
  | succ n ih =>
      intro pairs hlen acc
      match pairs with
      | [] => simp [simdLoop]
      | x :: rest =>
          rw [simdLoop]
          have hdrop : (List.drop laneWidth (x :: rest)).length ≤ n := by
            simp only [List.length_drop, List.length_cons]
            simp only [List.length_cons] at hlen
            simp [laneWidth]
            omega
          rw [ih _ hdrop]
          have hsplit :
              (x :: rest).countP (hitPred plane) =
                (List.take laneWidth (x :: rest)).countP (hitPred plane) +
                  (List.drop laneWidth (x :: rest)).countP (hitPred plane) := by
            conv =>
              lhs
              rw [← List.take_append_drop laneWidth (x :: rest)]
            rw [List.countP_append]
          rw [hsplit, laneHits_eq_countP]
          omega

theorem simd_eq_scalar (zmin zmax : List F32) (plane : F32) :
    process_stl_simd zmin zmax plane = process_stl_scalar zmin zmax plane := by
  unfold process_stl_simd process_stl_scalar
  by_cases h : zmin.length = zmax.length
  · simp only [h, if_true]
    rw [scalarLoop_eq_countP,
      simdLoop_eq_countP plane (zmin.zip zmax).length _ (Nat.le_refl _)]
  · simp [h]

/-- The count as the spec states it: the number of indices `i` with
`z_min[i] <= plane <= z_max[i]`. -/
def specCount (zmin zmax : List F32) (plane : F32) : Nat :=
  (List.range zmin.length).countP
    (fun i => intersects (zmin.getD i .nan) (zmax.getD i .nan) plane)

theorem countP_zip_eq_specCount (plane : F32) :
    ∀ zmin zmax : List F32, zmin.length = zmax.length →
      (zmin.zip zmax).countP (hitPred plane) = specCount zmin zmax plane := by
  intro zmin
  induction zmin with
  | nil => intro zmax h; simp [specCount]
  | cons a zrest ih =>
      intro zmax h
      match zmax with
      | [] => simp at h
      | b :: wrest =>
          simp only [List.length_cons, Nat.succ_inj] at h
          simp only [List.zip_cons_cons, List.countP_cons, specCount,
            List.length_cons, List.range_succ_eq_map, List.countP_map]
          rw [ih wrest h]
          have hfun :
              (List.range zrest.length).countP
                  ((fun i =>
                      intersects ((a :: zrest).getD i .nan)
                        ((b :: wrest).getD i .nan) plane) ∘ Nat.succ) =
                (List.range zrest.length).countP
                  (fun i =>
                    intersects (zrest.getD i .nan) (wrest.getD i .nan) plane) := by
            apply List.countP_congr
            intro i _
            simp [Function.comp, List.getD_cons_succ]
          rw [hfun]
          simp [specCount, hitPred, List.getD_cons_zero]

theorem scalar_eq_specCount (zmin zmax : List F32) (plane : F32)
    (h : zmin.length = zmax.length) :
    process_stl_scalar zmin zmax plane = .ok (specCount zmin zmax plane) := by
  unfold process_stl_scalar
  simp only [h, if_true]
  rw [scalarLoop_eq_countP, countP_zip_eq_specCount plane zmin zmax h]
  simp

theorem simd_eq_specCount (zmin zmax : List F32) (plane : F32)
    (h : zmin.length = zmax.length) :
    process_stl_simd zmin zmax plane = .ok (specCount zmin zmax plane) := by
  rw [simd_eq_scalar]
  exact scalar_eq_specCount zmin zmax plane h

/-- C1: for equal-length f32 batches and any plane, the vectorized kernel
returns exactly the same integer count as the scalar kernel — both return an
actual count (no error), and on the empty batch both return 0.  The inputs
range over all modelled f32 values, NaN and infinities included. -/
theorem c1_simd_equals_scalar (zmin zmax : List F32) (plane : F32)
    (h : zmin.length = zmax.length) :
    process_stl_simd zmin zmax plane = process_stl_scalar zmin zmax plane ∧
    (∃ n : Nat, process_stl_simd zmin zmax plane = .ok n ∧
      process_stl_scalar zmin zmax plane = .ok n) ∧
    process_stl_simd ([] : List F32) [] plane = .ok 0 ∧
    process_stl_scalar ([] : List F32) [] plane = .ok 0 := by
  refine ⟨simd_eq_scalar zmin zmax plane, ⟨specCount zmin zmax plane, ?_, ?_⟩, ?_, ?_⟩
  · exact simd_eq_specCount zmin zmax plane h
  · exact scalar_eq_specCount zmin zmax plane h
  · simp [process_stl_simd, simdLoop]
  · simp [process_stl_scalar, scalarLoop]

/-- Witness for C1 at a concrete batch containing NaN, both infinities and
finite values. -/
theorem c1_simd_equals_scalar_witness :
    process_stl_simd [F32.nan, F32.neginf, F32.finite 0, F32.inf]
        [F32.finite 1, F32.inf, F32.finite 2, F32.nan] (F32.finite 1) =
      process_stl_scalar [F32.nan, F32.neginf, F32.finite 0, F32.inf]
        [F32.finite 1, F32.inf, F32.finite 2, F32.nan] (F32.finite 1) :=
  (c1_simd_equals_scalar [F32.nan, F32.neginf, F32.finite 0, F32.inf]
    [F32.finite 1, F32.inf, F32.finite 2, F32.nan] (F32.finite 1) rfl).1

/-- C3: the count returned by either kernel variant is the number of indices
`i` with `z_min[i] <= plane <= z_max[i]` under IEEE comparison semantics, and
the one-triangle batch `z_min = 0.0`, `z_max = 1.0` yields count 1 at plane
0.5, count 0 at plane 1.5, and count 1 at both boundary planes 0.0 and 1.0. -/
theorem c3_count_is_index_spec :
    (∀ (zmin zmax : List F32) (plane : F32), zmin.length = zmax.length →
        process_stl_scalar zmin zmax plane = .ok (specCount zmin zmax plane) ∧
        process_stl_simd zmin zmax plane = .ok (specCount zmin zmax plane)) ∧
    process_stl_scalar [F32.finite 0] [F32.finite 1] (F32.finite (1/2)) = .ok 1 ∧
    process_stl_scalar [F32.finite 0] [F32.finite 1] (F32.finite (3/2)) = .ok 0 ∧
    process_stl_scalar [F32.finite 0] [F32.finite 1] (F32.finite 0) = .ok 1 ∧
    process_stl_scalar [F32.finite 0] [F32.finite 1] (F32.finite 1) = .ok 1 := by
  refine ⟨fun zmin zmax plane h =>
    ⟨scalar_eq_specCount zmin zmax plane h, simd_eq_specCount zmin zmax plane h⟩,
    ?_, ?_, ?_, ?_⟩ <;>
    simp [process_stl_scalar, scalarLoop, intersects, fle] <;> norm_num

/-- Witness for C3's universally quantified part at the concrete one-triangle
boundary batch. -/
theorem c3_count_is_index_spec_witness :
    process_stl_scalar [F32.finite 0] [F32.finite 1] (F32.finite (1/2)) =
      .ok (specCount [F32.finite 0] [F32.finite 1] (F32.finite (1/2))) :=
  (c3_count_is_index_spec.1 [F32.finite 0] [F32.finite 1] (F32.finite (1/2)) rfl).1

/-- C4: on mismatched input lengths both kernel variants fail with
`InvalidArgument`, and neither ever returns a (partial) count. -/
theorem c4_length_mismatch_invalid (zmin zmax : List F32) (plane : F32)
    (h : zmin.length ≠ zmax.length) :
    process_stl_simd zmin zmax plane = .error .invalidArgument ∧
    process_stl_scalar zmin zmax plane = .error .invalidArgument ∧
    (∀ n : Nat, process_stl_simd zmin zmax plane ≠ .ok n) ∧
    (∀ n : Nat, process_stl_scalar zmin zmax plane ≠ .ok n) := by
  unfold process_stl_simd process_stl_scalar
  simp [h]

/-- Witness for C4 at the spec's concrete shape: lengths 3 and 4. -/
theorem c4_length_mismatch_invalid_witness :
    process_stl_simd [F32.finite 0, F32.finite 0, F32.finite 0]
        [F32.finite 0, F32.finite 0, F32.finite 0, F32.finite 0]
        (F32.finite 5) = .error .invalidArgument :=
  (c4_length_mismatch_invalid
    [F32.finite 0, F32.finite 0, F32.finite 0]
    [F32.finite 0, F32.finite 0, F32.finite 0, F32.finite 0]
    (F32.finite 5) (by decide)).1

theorem intersects_eq_false_of_nan (a b p : F32)
    (h : a = F32.nan ∨ b = F32.nan) : intersects a b p = false := by
  rcases h with h | h <;> subst h
  · cases b <;> cases p <;> simp [intersects, fle]
  · cases a <;> cases p <;> simp [intersects, fle]

/-- C6: a triangle with NaN in either bound never satisfies the predicate; the
count over any batch equals the count over its NaN-free triangles (they are
excluded, not an error), and the concrete batch `z_min = NaN`, `z_max = 1.0`
at plane 0.5 yields count 0 from both variants. -/
theorem c6_nan_excluded :
    (∀ a b p : F32, (a = F32.nan ∨ b = F32.nan) → intersects a b p = false) ∧
    (∀ (pairs : List (F32 × F32)) (plane : F32),
        pairs.countP (hitPred plane) =
          (pairs.filter fun ab =>
              decide (ab.1 ≠ F32.nan) && decide (ab.2 ≠ F32.nan)).countP
            (hitPred plane)) ∧
    process_stl_scalar [F32.nan] [F32.finite 1] (F32.finite (1/2)) = .ok 0 ∧
    process_stl_simd [F32.nan] [F32.finite 1] (F32.finite (1/2)) = .ok 0 := by
  refine ⟨intersects_eq_false_of_nan, fun pairs plane => ?_, ?_, ?_⟩
  · rw [List.countP_filter]
    apply List.countP_congr
    intro ab _
    by_cases ha : ab.1 = F32.nan
    · simp [hitPred, intersects_eq_false_of_nan ab.1 ab.2 plane (Or.inl ha)]
    · by_cases hb : ab.2 = F32.nan
      · simp [hitPred, intersects_eq_false_of_nan ab.1 ab.2 plane (Or.inr hb)]
      · simp [ha, hb]
  · simp [process_stl_scalar, scalarLoop, intersects, fle]
  · rw [simd_eq_scalar]
    simp [process_stl_scalar, scalarLoop, intersects, fle]

/-- Witness for C6's quantified part: NaN as `z_min` makes the predicate
false at the spec's concrete triangle. -/
theorem c6_nan_excluded_witness :
    intersects F32.nan (F32.finite 1) (F32.finite (1/2)) = false :=
  c6_nan_excluded.1 F32.nan (F32.finite 1) (F32.finite (1/2)) (Or.inl rfl)

theorem fle_eq_false_of_flt (a b : F32) (h : flt a b = true) :
    fle b a = false := by
  cases a <;> cases b <;> simp [flt, fle] at h ⊢ <;> linarith

/-- C7: if the plane is strictly below every `z_min` of the batch, or strictly
above every `z_max` (IEEE strict comparison), both kernel variants return
count 0. -/
theorem c7_plane_outside_batch (zmin zmax : List F32) (plane : F32)
    (hlen : zmin.length = zmax.length)
    (hout : (∀ x ∈ zmin, flt plane x = true) ∨
            (∀ x ∈ zmax, flt x plane = true)) :
    process_stl_scalar zmin zmax plane = .ok 0 ∧
    process_stl_simd zmin zmax plane = .ok 0 := by
  have hcount : (zmin.zip zmax).countP (hitPred plane) = 0 := by
    rw [List.countP_eq_zero]
    intro ab hab
    obtain ⟨h1, h2⟩ := List.of_mem_zip (a := ab.1) (b := ab.2) (by simpa using hab)
    rcases hout with hout | hout
    · have : fle ab.1 plane = false :=
        fle_eq_false_of_flt plane ab.1 (hout ab.1 h1)
      simp [hitPred, intersects, this]
    · have : fle plane ab.2 = false :=
        fle_eq_false_of_flt ab.2 plane (hout ab.2 h2)
      simp [hitPred, intersects, this]
  constructor
  · unfold process_stl_scalar
    simp only [hlen, if_true]
    rw [scalarLoop_eq_countP, hcount]
  · rw [simd_eq_scalar]
    unfold process_stl_scalar
    simp only [hlen, if_true]
    rw [scalarLoop_eq_countP, hcount]

/-- Witness for C7: a plane strictly below the batch's single `z_min`. -/
theorem c7_plane_outside_batch_witness :
    process_stl_scalar [F32.finite 1] [F32.finite 2] (F32.finite 0) = .ok 0 :=
  (c7_plane_outside_batch [F32.finite 1] [F32.finite 2] (F32.finite 0) rfl
    (Or.inl (by intro x hx; simp at hx; subst hx; simp [flt]))).1

/-- Modelled from the spec: the synchronous argument validation of
`run_stress_test` — a negative iteration count fails with `InvalidArgument`
before any work begins; otherwise the validated cycle count is handed to the
safe acquisition protocol. -/
def run_stress_test_check (iters : Int) : Except EngineError Nat :=
  if iters < 0 then .error .invalidArgument else .ok iters.toNat

/-- Modelled from the spec: the synchronous argument validation of
`run_unsafe_stress_test` — a negative iteration count fails with
`InvalidArgument` before any work begins; otherwise the validated cycle count
and the `reverse` flag are handed to the unsafe acquisition path, which has no
other error report (a deadlocked call simply never returns). -/
def run_unsafe_stress_test_check (iters : Int) (reverse : Bool) :
    Except EngineError (Nat × Bool) :=
  if iters < 0 then .error .invalidArgument else .ok (iters.toNat, reverse)

/-- C5: negative iteration counts make `run_stress_test` and
`run_unsafe_stress_test` (either `reverse` setting) fail with
`InvalidArgument`, and `InvalidArgument` on a negative count is the only error
the unsafe path ever reports. -/
theorem c5_negative_iterations (iters : Int) (h : iters < 0) :
    run_stress_test_check iters = .error .invalidArgument ∧
    (∀ reverse : Bool,
      run_unsafe_stress_test_check iters reverse = .error .invalidArgument) ∧
    (∀ (j : Int) (reverse : Bool) (e : EngineError),
        run_unsafe_stress_test_check j reverse = .error e →
          e = .invalidArgument ∧ j < 0) := by
  refine ⟨?_, fun reverse => ?_, fun j reverse e he => ?_⟩
  · simp [run_stress_test_check, h]
  · simp [run_unsafe_stress_test_check, h]
  · by_cases hj : j < 0
    · simp only [run_unsafe_stress_test_check, hj, if_true] at he
      cases e
      exact ⟨rfl, hj⟩
    · simp [run_unsafe_stress_test_check, hj] at he

/-- Witness for C5 at `iterations = -1`. -/
theorem c5_negative_iterations_witness :
    run_stress_test_check (-1) = .error .invalidArgument :=
  (c5_negative_iterations (-1) (by decide)).1

/-- Modelled from the spec: the engine's only mutable shared state — the
ResourceSet's lock bookkeeping and its cycle counter.  The kernel entry
points are reachable through the same engine handle, so the model threads
this state through every kernel call to express that they never touch it. -/
structure EngineSharedState where
  cycleCounter : Nat
deriving DecidableEq

/-- One kernel call: variant, the two bound sequences, and the plane. -/
inductive KernelCall where
  | scalar (zmin zmax : List F32) (plane : F32)
  | simd (zmin zmax : List F32) (plane : F32)

/-- Modelled from the spec: executing one kernel call against the engine —
the kernel reads only its arguments and leaves the shared state untouched. -/
def kernelStep (st : EngineSharedState) :
    KernelCall → EngineSharedState × Except EngineError Nat
  | .scalar zmin zmax plane => (st, process_stl_scalar zmin zmax plane)
  | .simd zmin zmax plane => (st, process_stl_simd zmin zmax plane)

/-- The pure per-call result each kernel call must produce. -/
def callResult : KernelCall → Except EngineError Nat
  | .scalar zmin zmax plane => process_stl_scalar zmin zmax plane
  | .simd zmin zmax plane => process_stl_simd zmin zmax plane

/-- Running a whole history of kernel calls against the engine, threading the
shared state and collecting every call's result in order. -/
def runCalls (st : EngineSharedState) :
    List KernelCall → EngineSharedState × List (Except EngineError Nat)
  | [] => (st, [])
  | c :: cs =>
      let r := kernelStep st c
      let rest := runCalls r.1 cs
      (rest.1, r.2 :: rest.2)

theorem runCalls_state (st : EngineSharedState) :
    ∀ cs : List KernelCall, (runCalls st cs).1 = st := by
  intro cs
  induction cs with
  | nil => rfl
  | cons c cs ih =>
      cases c <;> simpa [runCalls, kernelStep] using ih

theorem runCalls_results :
    ∀ (cs : List KernelCall) (st : EngineSharedState),
      (runCalls st cs).2 = cs.map callResult := by
  intro cs
  induction cs with
  | nil => intro st; rfl
  | cons c cs ih =>
      intro st
      cases c <;> simp [runCalls, kernelStep, callResult, ih]

theorem getD_append_cons {α : Type} (l1 l2 : List α) (a d : α) :
    (l1 ++ a :: l2).getD l1.length d = a := by
  induction l1 with
  | nil => simp
  | cons x l1 ih => simpa [List.getD_cons_succ] using ih

/-- C8: the kernel is stateless and side-effect free — running any history of
kernel calls leaves the engine's shared state exactly as it was, every call's
result is the pure function of that call alone, and the same call made at any
position of any two histories (any number of other calls in between, any
starting state) returns the identical result. -/
theorem c8_kernel_stateless :
    (∀ (st : EngineSharedState) (cs : List KernelCall),
        (runCalls st cs).1 = st) ∧
    (∀ (st : EngineSharedState) (cs : List KernelCall),
        (runCalls st cs).2 = cs.map callResult) ∧
    (∀ (st₁ st₂ : EngineSharedState)
        (pre₁ post₁ pre₂ post₂ : List KernelCall) (c : KernelCall),
        (runCalls st₁ (pre₁ ++ c :: post₁)).2.getD pre₁.length
            (.error .invalidArgument) =
          (runCalls st₂ (pre₂ ++ c :: post₂)).2.getD pre₂.length
            (.error .invalidArgument)) := by
  refine ⟨runCalls_state, fun st cs => runCalls_results cs st, ?_⟩
  intro st₁ st₂ pre₁ post₁ pre₂ post₂ c
  rw [runCalls_results, runCalls_results, List.map_append, List.map_append]
  simp only [List.map_cons]
  rw [← List.length_map pre₁ callResult, ← List.length_map pre₂ callResult,
    getD_append_cons, getD_append_cons]

/-- Modelled from the spec: the local state of one stress-test worker thread.
`remaining` counts cycles not yet completed (including a cycle in progress),
`toAcquire` lists the locks still to acquire this cycle, in order, and `held`
the locks currently held, in acquisition order. -/
structure ThreadState where
  remaining : Nat
  toAcquire : List Nat
  held : List Nat
deriving DecidableEq

/-- Modelled from the spec: the stress subsystem's shared state — the shared
cycle counter plus every worker's local state.  Resource `l` is locked iff
some worker lists `l` in its `held`. -/
@[ext]
structure SysState (T : Nat) where
  counter : Nat
  thr : Fin T → ThreadState

/-- Resource `l` is free: no worker holds it. -/
def lockFree {T : Nat} (s : SysState T) (l : Nat) : Prop :=
  ∀ u : Fin T, l ∉ (s.thr u).held

/-- Modelled from the spec: a worker about to run `iters` cycles, acquiring
each cycle's locks in order `order`. -/
def initThread (iters : Nat) (order : List Nat) : ThreadState :=
  { remaining := iters
    toAcquire := if iters = 0 then [] else order
    held := [] }

/-- Modelled from the spec: the stress system at the moment its T workers
start — counter 0, no locks held, worker `t` acquiring in order `ord t`. -/
def initState (T iters : Nat) (ord : Fin T → List Nat) : SysState T :=
  { counter := 0, thr := fun t => initThread iters (ord t) }

/-- Modelled from the spec: one scheduling step of the stress subsystem.
`acquire`: a worker whose next wanted lock is free takes it (a worker whose
wanted lock is held by someone else blocks — it has no enabled step).
`finish`: a worker holding every lock of its cycle runs the critical section
(one increment of the shared counter), releases all its locks in reverse
order, and either starts its next cycle with its full acquisition order or,
with no cycles left, returns.  Releases never block, so the release
sequence and the increment form one step. -/
inductive Step {T : Nat} (ord : Fin T → List Nat) :
    SysState T → SysState T → Prop
  | acquire (s : SysState T) (t : Fin T) (l : Nat) (rest : List Nat)
      (hto : (s.thr t).toAcquire = l :: rest)
      (hfree : lockFree s l) :
      Step ord s
        { counter := s.counter
          thr := Function.update s.thr t
            { remaining := (s.thr t).remaining
              toAcquire := rest
              held := (s.thr t).held ++ [l] } }
  | finish (s : SysState T) (t : Fin T)
      (hto : (s.thr t).toAcquire = [])
      (hrem : 0 < (s.thr t).remaining) :
      Step ord s
        { counter := s.counter + 1
          thr := Function.update s.thr t
            { remaining := (s.thr t).remaining - 1
              toAcquire :=
                if (s.thr t).remaining - 1 = 0 then [] else ord t
              held := [] } }

/-- States the stress system can reach from `s0` under some interleaving. -/
def Reach {T : Nat} (ord : Fin T → List Nat) (s0 s : SysState T) : Prop :=
  Relation.ReflTransGen (Step ord) s0 s

/-- Every worker call has returned. -/
def allDone {T : Nat} (s : SysState T) : Prop :=
  ∀ t : Fin T, (s.thr t).remaining = 0

/-- Modelled from the spec: the safe protocol's acquisition order — the fixed
ascending global total order over the K resources, identical for every
worker. -/
def safeOrd (T K : Nat) : Fin T → List Nat := fun _ => List.range K

/-- Invariant of the safe stress system: a mid-cycle worker's held and
pending locks split the global ascending order; an idle worker holds and
wants nothing; completed cycles are exactly what the counter recorded. -/
structure SafeInv (T K iters : Nat) (s : SysState T) : Prop where
  shape : ∀ t, (s.thr t).held ++ (s.thr t).toAcquire = List.range K ∨
      ((s.thr t).held = [] ∧ (s.thr t).toAcquire = [])
  idle : ∀ t, (s.thr t).remaining = 0 →
      (s.thr t).held = [] ∧ (s.thr t).toAcquire = []
  rem_le : ∀ t, (s.thr t).remaining ≤ iters
  cnt : s.counter + ∑ t : Fin T, (s.thr t).remaining = T * iters

theorem sum_shift {T : Nat} (f g : Fin T → Nat) (t : Fin T)
    (h : ∀ u, u ≠ t → g u = f u) :
    (∑ u : Fin T, g u) + f t = (∑ u : Fin T, f u) + g t := by
  have h1 := Finset.add_sum_erase Finset.univ g (Finset.mem_univ t)
  have h2 := Finset.add_sum_erase Finset.univ f (Finset.mem_univ t)
  have h3 : ∑ u ∈ Finset.univ.erase t, g u = ∑ u ∈ Finset.univ.erase t, f u :=
    Finset.sum_congr rfl fun u hu => h u (Finset.mem_erase.mp hu).1
  omega

theorem sum_comp_update {T : Nat} (f : Fin T → ThreadState) (t : Fin T)
    (x : ThreadState) (m : ThreadState → Nat) :
    (∑ u : Fin T, m (Function.update f t x u)) + m (f t) =
      (∑ u : Fin T, m (f u)) + m x := by
  have h := sum_shift (fun u => m (f u))
    (fun u => m (Function.update f t x u)) t
    (fun u hu => by simp [Function.update_noteq hu])
  simpa using h

theorem safeInv_init (T K iters : Nat) :
    SafeInv T K iters (initState T iters (safeOrd T K)) := by
  constructor
  · intro t
    by_cases h : iters = 0 <;> simp [initState, initThread, safeOrd, h]
  · intro t ht
    simp only [initState, initThread] at ht ⊢
    simp [ht]
  · intro t; simp [initState, initThread]
  · simp [initState, initThread, Finset.sum_const, Finset.card_univ, mul_comm]

theorem safeInv_step {T K iters : Nat} {s s' : SysState T}
    (hinv : SafeInv T K iters s) (hstep : Step (safeOrd T K) s s') :
    SafeInv T K iters s' := by
  cases hstep with
  | acquire t l rest hto hfree =>
      constructor
      · intro u
        by_cases hu : u = t
        · subst hu
          rcases hinv.shape u with hsh | hsh
          · left
            rw [hto] at hsh
            simp only [Function.update_same]
            rw [List.append_assoc]
            simpa using hsh
          · exfalso
            rw [hsh.2] at hto
            exact List.noConfusion hto
        · simp only [Function.update_noteq hu]
          exact hinv.shape u
      · intro u hu0
        by_cases hu : u = t
        · subst hu
          exfalso
          simp only [Function.update_same] at hu0
          have h2 := (hinv.idle u hu0).2
          rw [h2] at hto
          exact List.noConfusion hto
        · simp only [Function.update_noteq hu] at hu0 ⊢
          exact hinv.idle u hu0
      · intro u
        by_cases hu : u = t
        · subst hu
          simp only [Function.update_same]
          exact hinv.rem_le u
        · simp only [Function.update_noteq hu]
          exact hinv.rem_le u
      · have h := sum_comp_update s.thr t
          { remaining := (s.thr t).remaining
            toAcquire := rest
            held := (s.thr t).held ++ [l] } ThreadState.remaining
        have hx : ThreadState.remaining
            { remaining := (s.thr t).remaining
              toAcquire := rest
              held := (s.thr t).held ++ [l] } = (s.thr t).remaining := rfl
        rw [hx] at h
        have hc := hinv.cnt
        show s.counter + ∑ u : Fin T,
            (Function.update s.thr t
              { remaining := (s.thr t).remaining
                toAcquire := rest
                held := (s.thr t).held ++ [l] } u).remaining = T * iters
        omega
  | finish t hto hrem =>
      constructor
      · intro u
        by_cases hu : u = t
        · subst hu
          simp only [Function.update_same]
          by_cases hz : (s.thr u).remaining - 1 = 0
          · right; simp [hz]
          · left; simp [hz, safeOrd]
        · simp only [Function.update_noteq hu]
          exact hinv.shape u
      · intro u hu0
        by_cases hu : u = t
        · subst hu
          simp only [Function.update_same] at hu0 ⊢
          simp [hu0]
        · simp only [Function.update_noteq hu] at hu0 ⊢
          exact hinv.idle u hu0
      · intro u
        by_cases hu : u = t
        · subst hu
          simp only [Function.update_same]
          have := hinv.rem_le u
          omega
        · simp only [Function.update_noteq hu]
          exact hinv.rem_le u
      · have h := sum_comp_update s.thr t
          { remaining := (s.thr t).remaining - 1
            toAcquire := if (s.thr t).remaining - 1 = 0 then [] else safeOrd T K t
            held := [] } ThreadState.remaining
        have hx : ThreadState.remaining
            { remaining := (s.thr t).remaining - 1
              toAcquire := if (s.thr t).remaining - 1 = 0 then [] else safeOrd T K t
              held := [] } = (s.thr t).remaining - 1 := rfl
        rw [hx] at h
        have hc := hinv.cnt
        show s.counter + 1 + ∑ u : Fin T,
            (Function.update s.thr t
              { remaining := (s.thr t).remaining - 1
                toAcquire := if (s.thr t).remaining - 1 = 0 then [] else safeOrd T K t
                held := [] } u).remaining = T * iters
        omega

theorem safeInv_reach {T K iters : Nat} {s : SysState T}
    (h : Reach (safeOrd T K) (initState T iters (safeOrd T K)) s) :
    SafeInv T K iters s := by
  induction h with
  | refl => exact safeInv_init T K iters
  | tail _ hstep ih => exact safeInv_step ih hstep

/-- Progress of the safe protocol: a state of the safe stress system that
still has an unfinished worker always has an enabled step — the classic
ordered-acquisition argument: were every unfinished worker blocked, the
worker whose wanted lock is largest would be blocked on a lock held by a
worker whose own wanted lock is larger still. -/
theorem safe_progress {T K iters : Nat} {s : SysState T}
    (hinv : SafeInv T K iters s) (hnd : ¬ allDone s) :
    ∃ s', Step (safeOrd T K) s s' := by
  by_cases hfin : ∃ t : Fin T, (s.thr t).toAcquire = [] ∧ 0 < (s.thr t).remaining
  · obtain ⟨t, hto, hrem⟩ := hfin
    exact ⟨_, Step.finish s t hto hrem⟩
  · push_neg at hfin
    simp only [allDone] at hnd
    push_neg at hnd
    obtain ⟨t0, ht0⟩ := hnd
    have htoa0 : (s.thr t0).toAcquire ≠ [] := by
      intro he
      have := hfin t0 he
      omega
    classical
    have ht0S : t0 ∈ Finset.univ.filter
        (fun t : Fin T => (s.thr t).toAcquire ≠ []) := by
      simp [htoa0]
    by_cases hacq : ∃ t ∈ Finset.univ.filter
        (fun t : Fin T => (s.thr t).toAcquire ≠ []),
        lockFree s ((s.thr t).toAcquire.headD 0)
    · obtain ⟨t, htS, hfree⟩ := hacq
      have htoa : (s.thr t).toAcquire ≠ [] := by
        simpa using (Finset.mem_filter.mp htS).2
      obtain ⟨l, rest, hcons⟩ := List.exists_cons_of_ne_nil htoa
      refine ⟨_, Step.acquire s t l rest hcons ?_⟩
      rw [hcons] at hfree
      simpa using hfree
    · push_neg at hacq
      obtain ⟨tm, htmS, hmax⟩ := Finset.exists_max_image
        (Finset.univ.filter (fun t : Fin T => (s.thr t).toAcquire ≠ []))
        (fun t => (s.thr t).toAcquire.headD 0) ⟨t0, ht0S⟩
      have hnf := hacq tm htmS
      simp only [lockFree] at hnf
      push_neg at hnf
      obtain ⟨u, hu⟩ := hnf
      have hne : (s.thr u).held ≠ [] := by
        intro h
        rw [h] at hu
        exact List.not_mem_nil _ hu
      have hsh : (s.thr u).held ++ (s.thr u).toAcquire = List.range K :=
        (hinv.shape u).resolve_right (fun h => hne h.1)
      have hrem_u : (s.thr u).remaining ≠ 0 := fun h0 => hne (hinv.idle u h0).1
      have htoa_u : (s.thr u).toAcquire ≠ [] := by
        intro he
        have := hfin u he
        omega
      have huS : u ∈ Finset.univ.filter
          (fun t : Fin T => (s.thr t).toAcquire ≠ []) := by
        simp [htoa_u]
      obtain ⟨lu, restu, hconsu⟩ := List.exists_cons_of_ne_nil htoa_u
      have hpw : List.Pairwise (· < ·)
          ((s.thr u).held ++ (s.thr u).toAcquire) := by
        rw [hsh]
        exact List.pairwise_lt_range K
      have hlt : (s.thr tm).toAcquire.headD 0 < lu :=
        (List.pairwise_append.mp hpw).2.2 _ hu lu
          (by rw [hconsu]; exact List.mem_cons_self lu restu)
      have hwu : (s.thr u).toAcquire.headD 0 = lu := by
        rw [hconsu]; rfl
      have hle := hmax u huS
      rw [hwu] at hle
      omega

/-- The cycle counter's value once every safe-protocol worker has returned:
exactly `T * iterations`. -/
theorem safe_done_counter {T K iters : Nat} {s : SysState T}
    (hinv : SafeInv T K iters s) (hdone : allDone s) :
    s.counter = T * iters := by
  have hc := hinv.cnt
  have hz : ∑ t : Fin T, (s.thr t).remaining = 0 :=
    Finset.sum_eq_zero (fun t _ => hdone t)
  omega

/-- Termination measure of the stress system: remaining cycles dominate, the
locks still to acquire in the current cycle break ties. -/
def sysMeasure (K : Nat) {T : Nat} (s : SysState T) : Nat :=
  ∑ t : Fin T, ((s.thr t).remaining * (K + 1) + (s.thr t).toAcquire.length)

theorem sum_measure_update {T : Nat} (f : Fin T → ThreadState) (t : Fin T)
    (x : ThreadState) (c : Nat) :
    (∑ u : Fin T, ((Function.update f t x u).remaining * c +
        (Function.update f t x u).toAcquire.length)) +
      ((f t).remaining * c + (f t).toAcquire.length) =
      (∑ u : Fin T, ((f u).remaining * c + (f u).toAcquire.length)) +
        (x.remaining * c + x.toAcquire.length) := by
  have h := sum_shift
    (fun u => (f u).remaining * c + (f u).toAcquire.length)
    (fun u => (Function.update f t x u).remaining * c +
      (Function.update f t x u).toAcquire.length)
    t (fun u hu => by simp [Function.update_noteq hu])
  simpa using h

/-- Every step of the safe stress system strictly decreases the measure, so
no execution runs forever: every interleaving reaches a final state. -/
theorem safe_step_measure {T K : Nat} {s s' : SysState T}
    (hstep : Step (safeOrd T K) s s') : sysMeasure K s' < sysMeasure K s := by
  cases hstep with
  | acquire t l rest hto hfree =>
      have h := sum_measure_update s.thr t
        { remaining := (s.thr t).remaining
          toAcquire := rest
          held := (s.thr t).held ++ [l] } (K + 1)
      have hx : ThreadState.remaining
            { remaining := (s.thr t).remaining
              toAcquire := rest
              held := (s.thr t).held ++ [l] } * (K + 1) +
            (ThreadState.toAcquire
              { remaining := (s.thr t).remaining
                toAcquire := rest
                held := (s.thr t).held ++ [l] }).length =
          (s.thr t).remaining * (K + 1) + rest.length := rfl
      rw [hx] at h
      have hlen : (s.thr t).toAcquire.length = rest.length + 1 := by
        rw [hto]; rfl
      show (∑ u : Fin T,
          ((Function.update s.thr t
              { remaining := (s.thr t).remaining
                toAcquire := rest
                held := (s.thr t).held ++ [l] } u).remaining * (K + 1) +
            (Function.update s.thr t
              { remaining := (s.thr t).remaining
                toAcquire := rest
                held := (s.thr t).held ++ [l] } u).toAcquire.length)) <
        sysMeasure K s
      unfold sysMeasure
      omega
  | finish t hto hrem =>
      have h := sum_measure_update s.thr t
        { remaining := (s.thr t).remaining - 1
          toAcquire := if (s.thr t).remaining - 1 = 0 then [] else safeOrd T K t
          held := [] } (K + 1)
      have hx : ThreadState.remaining
            { remaining := (s.thr t).remaining - 1
              toAcquire :=
                if (s.thr t).remaining - 1 = 0 then [] else safeOrd T K t
              held := [] } * (K + 1) +
            (ThreadState.toAcquire
              { remaining := (s.thr t).remaining - 1
                toAcquire :=
                  if (s.thr t).remaining - 1 = 0 then [] else safeOrd T K t
                held := [] }).length =
          ((s.thr t).remaining - 1) * (K + 1) +
            (if (s.thr t).remaining - 1 = 0 then ([] : List Nat)
              else safeOrd T K t).length := rfl
      rw [hx] at h
      have hlen0 : (s.thr t).toAcquire.length = 0 := by
        rw [hto]; rfl
      have hreflen :
          (if (s.thr t).remaining - 1 = 0 then ([] : List Nat)
            else safeOrd T K t).length ≤ K := by
        by_cases hz : (s.thr t).remaining - 1 = 0 <;> simp [hz, safeOrd]
      have hmul : ((s.thr t).remaining - 1) * (K + 1) + (K + 1) =
          (s.thr t).remaining * (K + 1) := by
        have hr : (s.thr t).remaining - 1 + 1 = (s.thr t).remaining := by omega
        calc ((s.thr t).remaining - 1) * (K + 1) + (K + 1)
            = ((s.thr t).remaining - 1 + 1) * (K + 1) := by
              rw [Nat.succ_mul]
          _ = (s.thr t).remaining * (K + 1) := by rw [hr]
      show (∑ u : Fin T,
          ((Function.update s.thr t
              { remaining := (s.thr t).remaining - 1
                toAcquire :=
                  if (s.thr t).remaining - 1 = 0 then [] else safeOrd T K t
                held := [] } u).remaining * (K + 1) +
            (Function.update s.thr t
              { remaining := (s.thr t).remaining - 1
                toAcquire :=
                  if (s.thr t).remaining - 1 = 0 then [] else safeOrd T K t
                held := [] } u).toAcquire.length)) <
        sysMeasure K s
      unfold sysMeasure
      omega

/-- C2: with any number `T >= 1` of workers running the safe stress test
concurrently on one shared engine for any `iterations >= 0` cycle count,
under any scheduling interleaving every call returns: any reachable state
with an unfinished worker has an enabled step (no deadlock), every step
strictly decreases a measure (no infinite run), and when all workers have
returned the shared cycle counter is exactly `T * iterations`. -/
theorem c2_safe_stress_deadlock_free (T K iters : Nat) (_hT : 1 ≤ T) :
    (∀ s : SysState T,
        Reach (safeOrd T K) (initState T iters (safeOrd T K)) s →
        ¬ allDone s → ∃ s', Step (safeOrd T K) s s') ∧
    (∀ s s' : SysState T, Step (safeOrd T K) s s' →
        sysMeasure K s' < sysMeasure K s) ∧
    (∀ s : SysState T,
        Reach (safeOrd T K) (initState T iters (safeOrd T K)) s →
        allDone s → s.counter = T * iters) :=
  ⟨fun _ hr hnd => safe_progress (safeInv_reach hr) hnd,
   fun _ _ hstep => safe_step_measure hstep,
   fun _ hr hdone => safe_done_counter (safeInv_reach hr) hdone⟩

/-- Witness for C2: one worker, one resource, zero iterations — the initial
state is already final and its counter is `1 * 0`. -/
theorem c2_safe_stress_deadlock_free_witness :
    (initState 1 0 (safeOrd 1 1)).counter = 1 * 0 :=
  (c2_safe_stress_deadlock_free 1 1 0 (by decide)).2.2
    (initState 1 0 (safeOrd 1 1)) Relation.ReflTransGen.refl
    (fun _ => rfl)

/-- Modelled from the spec: the descending acquisition order used by an
unsafe-path worker running with `reverse = true`. -/
def descList (K : Nat) : List Nat := (List.range K).reverse

/-- Modelled from the spec: the acquisition orders of two workers running the
unsafe stress path with opposite `reverse` settings on one engine — worker 0
ascending (`reverse = false`), worker 1 descending (`reverse = true`). -/
def unsafeOrd (K : Nat) : Fin 2 → List Nat :=
  fun t => if t = 0 then List.range K else descList K

theorem descList_length (K : Nat) : (descList K).length = K := by
  simp [descList]

theorem descList_getElem (K m : Nat) (hm : m < (descList K).length) :
    (descList K)[m] = K - 1 - m := by
  simp [descList, List.getElem_reverse]

/-- The adversarial interleaving after worker 0 has taken resource 0 and
worker 1 has taken the top `m` resources in descending order. -/
def unsafeState (K iters m : Nat) : SysState 2 :=
  { counter := 0
    thr := fun t =>
      if t = 0 then
        { remaining := iters
          toAcquire := List.map Nat.succ (List.range (K - 1))
          held := [0] }
      else
        { remaining := iters
          toAcquire := (descList K).drop m
          held := (descList K).take m } }

theorem unsafeState_thr0 (K iters m : Nat) :
    (unsafeState K iters m).thr 0 =
      { remaining := iters
        toAcquire := List.map Nat.succ (List.range (K - 1))
        held := [0] } := by
  simp [unsafeState]

theorem unsafeState_thr1 (K iters m : Nat) :
    (unsafeState K iters m).thr 1 =
      { remaining := iters
        toAcquire := (descList K).drop m
        held := (descList K).take m } := by
  simp [unsafeState]

theorem fin2_eq (u : Fin 2) : u = 0 ∨ u = 1 :=
  match u with
  | ⟨0, _⟩ => Or.inl rfl
  | ⟨1, _⟩ => Or.inr rfl

theorem unsafe_reach_aux (k iters : Nat) (hit : 1 ≤ iters) :
    ∀ m, m ≤ k + 1 →
      Reach (unsafeOrd (k + 2)) (initState 2 iters (unsafeOrd (k + 2)))
        (unsafeState (k + 2) iters m) := by
  have hit0 : iters ≠ 0 := by omega
  intro m
  induction m with
  | zero =>
      intro _
      have hto : ((initState 2 iters (unsafeOrd (k + 2))).thr 0).toAcquire =
          0 :: List.map Nat.succ (List.range (k + 1)) := by
        simp [initState, initThread, unsafeOrd, hit0]
        exact List.range_succ_eq_map (k + 1)
      have hfree : lockFree (initState 2 iters (unsafeOrd (k + 2))) 0 := by
        intro u
        simp [initState, initThread]
      have hstep := @Step.acquire 2 (unsafeOrd (k + 2))
        (initState 2 iters (unsafeOrd (k + 2))) 0 0
        (List.map Nat.succ (List.range (k + 1))) hto hfree
      have heq :
          ({ counter := (initState 2 iters (unsafeOrd (k + 2))).counter
             thr := Function.update (initState 2 iters (unsafeOrd (k + 2))).thr 0
               { remaining :=
                   ((initState 2 iters (unsafeOrd (k + 2))).thr 0).remaining
                 toAcquire := List.map Nat.succ (List.range (k + 1))
                 held :=
                   ((initState 2 iters (unsafeOrd (k + 2))).thr 0).held ++
                     [0] } } : SysState 2) =
            unsafeState (k + 2) iters 0 := by
        refine SysState.ext ?_ (funext fun u => ?_)
        · simp [initState, unsafeState]
        · rcases fin2_eq u with rfl | rfl
          · simp [initState, initThread, unsafeState, unsafeOrd, hit0]
          · simp only [Function.update_noteq
              (show (1 : Fin 2) ≠ 0 from by decide)]
            simp [initState, initThread, unsafeState, unsafeOrd, hit0]
      exact heq ▸ Relation.ReflTransGen.single hstep
  | succ m ih =>
      intro hm1
      have hm : m ≤ k + 1 := by omega
      have hmlt : m < (descList (k + 2)).length := by
        rw [descList_length]; omega
      have hdrop : (descList (k + 2)).drop m =
          (k + 1 - m) :: (descList (k + 2)).drop (m + 1) := by
        rw [List.drop_eq_getElem_cons hmlt, descList_getElem]
        congr 1
      have hto : ((unsafeState (k + 2) iters m).thr 1).toAcquire =
          (k + 1 - m) :: (descList (k + 2)).drop (m + 1) := by
        rw [unsafeState_thr1]
        exact hdrop
      have hfree : lockFree (unsafeState (k + 2) iters m) (k + 1 - m) := by
        intro u
        rcases fin2_eq u with rfl | rfl
        · rw [unsafeState_thr0]
          simp
          omega
        · rw [unsafeState_thr1]
          simp only [List.mem_take_iff_getElem]
          rintro ⟨i, hi, hval⟩
          rw [descList_getElem] at hval
          have hik : i < m := by
            rw [descList_length] at hi
            omega
          omega
      have hstep := @Step.acquire 2 (unsafeOrd (k + 2))
        (unsafeState (k + 2) iters m) 1 (k + 1 - m)
        ((descList (k + 2)).drop (m + 1)) hto hfree
      have htake : ((unsafeState (k + 2) iters m).thr 1).held ++ [k + 1 - m] =
          (descList (k + 2)).take (m + 1) := by
        rw [unsafeState_thr1]
        have hconcat := List.take_concat_get (descList (k + 2)) m hmlt
        rw [List.concat_eq_append, descList_getElem] at hconcat
        exact hconcat
      have heq :
          ({ counter := (unsafeState (k + 2) iters m).counter
             thr := Function.update (unsafeState (k + 2) iters m).thr 1
               { remaining := ((unsafeState (k + 2) iters m).thr 1).remaining
                 toAcquire := (descList (k + 2)).drop (m + 1)
                 held :=
                   ((unsafeState (k + 2) iters m).thr 1).held ++
                     [k + 1 - m] } } : SysState 2) =
            unsafeState (k + 2) iters (m + 1) := by
        refine SysState.ext ?_ (funext fun u => ?_)
        · simp [unsafeState]
        · rcases fin2_eq u with rfl | rfl
          · simp only [Function.update_noteq
              (show (0 : Fin 2) ≠ 1 from by decide)]
            rw [unsafeState_thr0, unsafeState_thr0]
          · simp only [Function.update_same]
            rw [htake]
            rw [unsafeState_thr1, unsafeState_thr1]
      exact Relation.ReflTransGen.tail (ih hm) (heq ▸ hstep)

theorem unsafe_final_thr0_toAcquire (k iters : Nat) :
    ((unsafeState (k + 2) iters (k + 1)).thr 0).toAcquire =
      1 :: List.map Nat.succ (List.map Nat.succ (List.range k)) := by
  rw [unsafeState_thr0]
  show List.map Nat.succ (List.range (k + 1)) = _
  rw [List.range_succ_eq_map]
  simp

theorem unsafe_final_thr1_toAcquire (k iters : Nat) :
    ((unsafeState (k + 2) iters (k + 1)).thr 1).toAcquire = [0] := by
  rw [unsafeState_thr1]
  have hlt : k + 1 < (descList (k + 2)).length := by
    rw [descList_length]; omega
  rw [List.drop_eq_getElem_cons hlt, descList_getElem]
  have : (descList (k + 2)).drop (k + 2) = [] := by
    apply List.drop_eq_nil_of_le
    rw [descList_length]
  rw [this]
  norm_num

theorem unsafe_final_one_mem_held1 (k iters : Nat) :
    1 ∈ ((unsafeState (k + 2) iters (k + 1)).thr 1).held := by
  rw [unsafeState_thr1]
  rw [List.mem_take_iff_getElem]
  refine ⟨k, ?_, ?_⟩
  · rw [descList_length]
    omega
  · rw [descList_getElem]
    omega

theorem unsafe_final_stuck (k iters : Nat) :
    ∀ s' : SysState 2,
      ¬ Step (unsafeOrd (k + 2)) (unsafeState (k + 2) iters (k + 1)) s' := by
  intro s' hstep
  cases hstep with
  | acquire t l rest hto hfree =>
      rcases fin2_eq t with rfl | rfl
      · rw [unsafe_final_thr0_toAcquire] at hto
        have hl : l = 1 := (List.cons.injEq _ _ _ _ ▸ hto).1.symm
        subst hl
        exact hfree 1 (unsafe_final_one_mem_held1 k iters)
      · rw [unsafe_final_thr1_toAcquire] at hto
        have hl : l = 0 := (List.cons.injEq _ _ _ _ ▸ hto).1.symm
        subst hl
        have h0 : 0 ∈ ((unsafeState (k + 2) iters (k + 1)).thr 0).held := by
          rw [unsafeState_thr0]
          exact List.mem_cons_self 0 []
        exact hfree 0 h0
  | finish t hto hrem =>
      rcases fin2_eq t with rfl | rfl
      · rw [unsafe_final_thr0_toAcquire] at hto
        exact List.noConfusion hto
      · rw [unsafe_final_thr1_toAcquire] at hto
        exact List.noConfusion hto

/-- C9: when two concurrent unsafe-path calls on one engine use opposite
`reverse` settings over `K >= 2` resources (any positive iteration count),
some scheduling interleaving reaches a circular wait: worker 0 holds
resource `i` and awaits `i + 1`, worker 1 holds `i + 1` and awaits `i`, no
step is enabled anymore (both calls block forever), and neither call has
returned.  This is the existence of one bad schedule, not a property of
every run. -/
theorem c9_unsafe_circular_wait (K iters : Nat) (hK : 2 ≤ K)
    (hit : 1 ≤ iters) :
    ∃ s : SysState 2,
      Reach (unsafeOrd K) (initState 2 iters (unsafeOrd K)) s ∧
      (∃ i : Nat,
        i ∈ (s.thr 0).held ∧ (s.thr 0).toAcquire.head? = some (i + 1) ∧
        (i + 1) ∈ (s.thr 1).held ∧ (s.thr 1).toAcquire.head? = some i) ∧
      (∀ s' : SysState 2, ¬ Step (unsafeOrd K) s s') ∧
      ¬ allDone s := by
  obtain ⟨k, rfl⟩ : ∃ k, K = k + 2 := ⟨K - 2, by omega⟩
  refine ⟨unsafeState (k + 2) iters (k + 1),
    unsafe_reach_aux k iters hit (k + 1) (Nat.le_refl _), ⟨0, ?_, ?_, ?_, ?_⟩,
    unsafe_final_stuck k iters, ?_⟩
  · rw [unsafeState_thr0]
    exact List.mem_cons_self 0 []
  · rw [unsafe_final_thr0_toAcquire]
    rfl
  · exact unsafe_final_one_mem_held1 k iters
  · rw [unsafe_final_thr1_toAcquire]
    rfl
  · intro hdone
    have h0 := hdone 0
    rw [unsafeState_thr0] at h0
    simp at h0
    omega

/-- Witness for C9 at the minimal configuration: `K = 2` resources and one
iteration per worker. -/
theorem c9_unsafe_circular_wait_witness :
    ∃ s : SysState 2,
      Reach (unsafeOrd 2) (initState 2 1 (unsafeOrd 2)) s ∧
      (∃ i : Nat,
        i ∈ (s.thr 0).held ∧ (s.thr 0).toAcquire.head? = some (i + 1) ∧
        (i + 1) ∈ (s.thr 1).held ∧ (s.thr 1).toAcquire.head? = some i) ∧
      (∀ s' : SysState 2, ¬ Step (unsafeOrd 2) s s') ∧
      ¬ allDone s :=
  c9_unsafe_circular_wait 2 1 (by decide) (by decide)

/-- What a worker thread's body can print: nothing, or a caught error. -/
inductive HammerOutput where
  | silent : HammerOutput
  | printedError (e : EngineError) : HammerOutput
deriving DecidableEq

/-- Embedded from `main.py` (`unsafe_hammer`): the worker wraps the engine
call in `try/except` and prints any raised exception inside the thread, so
the thread function itself always returns normally — no error propagates out
of the worker (in particular never to the main thread). -/
def unsafe_hammer (result : Except EngineError Unit) :
    Except EngineError HammerOutput :=
  match result with
  | .ok _ => .ok .silent
  | .error e => .ok (.printedError e)

/-- Embedded from `main.py`: the join timeout, in seconds, the driver applies
to each unsafe worker thread. -/
def joinTimeoutSeconds : ℚ := 2

/-- The driver's possible outcomes for the unsafe-deadlock phase. -/
inductive DriverOutcome where
  | forcedExit (code : Nat) : DriverOutcome
  | reportLuckyRun : DriverOutcome
deriving DecidableEq

/-- Embedded from `main.py` (the `__main__` deadlock phase): after joining
both unsafe worker threads with the timeout, the driver tests
`t1.is_alive() or t2.is_alive()`; if either worker is still alive it prints
the deadlock banner and forcibly terminates the whole process with
`os._exit(1)`, otherwise it reports that the unsafe run got lucky. -/
def driver_after_join (t1Alive t2Alive : Bool) : DriverOutcome :=
  if t1Alive || t2Alive then .forcedExit 1 else .reportLuckyRun

/-- C10: if either unsafe-stress worker is still alive after the 2.0-second
join timeout, the driver forcibly terminates the process with exit status 1
(it raises nothing and never tries to stop the threads — exit is its only
non-lucky outcome), and any error raised inside a worker by the engine call
is caught and printed within that thread, never propagated. -/
theorem c10_driver_force_exits_on_hang :
    (∀ a b : Bool, a = true ∨ b = true →
        driver_after_join a b = .forcedExit 1) ∧
    (∀ a b : Bool, driver_after_join a b ≠ .forcedExit 1 →
        a = false ∧ b = false ∧ driver_after_join a b = .reportLuckyRun) ∧
    joinTimeoutSeconds = 2 ∧
    (∀ r : Except EngineError Unit, ∃ out : HammerOutput,
        unsafe_hammer r = .ok out) ∧
    (∀ (r : Except EngineError Unit) (e : EngineError),
        unsafe_hammer r ≠ .error e) := by
  refine ⟨?_, ?_, rfl, ?_, ?_⟩
  · intro a b h
    rcases h with h | h <;> subst h <;> simp [driver_after_join]
  · intro a b h
    cases a <;> cases b <;> simp [driver_after_join] at h ⊢
  · intro r
    cases r with
    | ok u => exact ⟨.silent, rfl⟩
    | error e => exact ⟨.printedError e, rfl⟩
  · intro r e
    cases r <;> simp [unsafe_hammer]

/-- Witness for C10: one worker alive at the timeout forces exit status 1. -/
theorem c10_driver_force_exits_on_hang_witness :
    driver_after_join true false = .forcedExit 1 :=
  c10_driver_force_exits_on_hang.1 true false (Or.inl rfl)

end Nanoscribe
